import Mathlib

/-!
Verification of the core of `cppyplot.hpp` (single-header C++ plotting bridge):
the dedent engine (`non_empty_line_idx`, `dedent_string`), the type registry
(`ValType`), the container adapters (`shape_str`, `size_str`, `void_ptr`),
the header builder (`create_header`) and the batch send sequencing
(`send_container`, `data_args`).

Strings are modelled as `List Char`.  C++ `int` variables that can go negative
(`line_start`, `new_line_pos`) are modelled as `Int`; the `unsigned int`
expression `i - line_start + 1u` is modelled by reduction modulo `2 ^ 32`;
`std::string_view::substr`, which throws `std::out_of_range` when `pos > size()`,
is modelled as an `Option`-returning function, and so is `dedent_string`
(`none` = the C++ function throws).
-/

namespace Cppyplot

/-- A character counts as indentation whitespace when it is a space or a tab
(the two characters the C++ code tests for). -/
def isWsp (c : Char) : Bool := c == ' ' || c == '\t'

/-- Loop body of `non_empty_line_idx` (cppyplot.hpp:300-309).  Walks the
string; `i` is the current index, `nlPos` the position of the last newline
seen (`-1` initially), `ns` the count of space/tab characters since that
newline.  Stops at the first character that is neither a newline nor
space/tab. -/
def neli_loop : List Char → Nat → Int → Nat → Int × Nat
  | [], _, nlPos, ns => (nlPos, ns)
  | c :: rest, i, nlPos, ns =>
    if c = '\n' then neli_loop rest (i + 1) (i : Int) 0
    else if isWsp c then neli_loop rest (i + 1) nlPos (ns + 1)
    else (nlPos, ns)

/-- `non_empty_line_idx` (cppyplot.hpp:296-311): returns the index of the start
of the first line holding a non-whitespace character, together with the number
of leading space/tab characters on that line. -/
def non_empty_line_idx (s : List Char) : Nat × Nat :=
  let r := neli_loop s 0 (-1) 0
  ((r.1 + 1).toNat, r.2)

/-- Reduction of an `Int` modulo `2 ^ 32`, as a `Nat`: the value of the C++
`unsigned int` expression that produced it. -/
def wrap32 (n : Int) : Nat := (n % (2 ^ 32 : Int)).toNat

/-- `std::string_view::substr(pos, count)`: throws `std::out_of_range` when
`pos > size()` (modelled as `none`); a negative `int` position converts to a
huge `size_t`, hence is also out of range; `count` is clamped to
`size() - pos`. -/
def substrV (s : List Char) (pos : Int) (count : Nat) : Option (List Char) :=
  if pos < 0 ∨ (s.length : Int) < pos then none
  else some ((s.drop pos.toNat).take count)

/-- Loop body of `dedent_string` (cppyplot.hpp:327-350).  `raw` is the whole
input (indexed by `substrV`), `k` the reference indentation `num_spaces`; the
remaining characters are walked with their index `i`; `ps` is
`process_spaces`, `ls` is `line_start`, `cur` is `cur_space_count` and `out`
the accumulated output. -/
def dedent_loop (raw : List Char) (k : Nat) :
    List Char → Nat → Bool → Int → Nat → List Char → Option (List Char)
  | [], _, _, _, _, out => some out
  | c :: rest, i, ps, ls, cur, out =>
    if ps then
      if isWsp c then dedent_loop raw k rest (i + 1) true ls (cur + 1) out
      else dedent_loop raw k rest (i + 1) false (i : Int) cur out
    else if c = '\n' then
      if ls ≠ -1 then
        let ls2 : Int := ls - ((cur : Int) - (k : Int))
        match substrV raw ls2 (wrap32 ((i : Int) - ls2 + 1)) with
        | none => none
        | some seg => dedent_loop raw k rest (i + 1) true (-1) 0 (out ++ seg)
      else dedent_loop raw k rest (i + 1) true (-1) 0 out
    else dedent_loop raw k rest (i + 1) false ls cur out

/-- `dedent_string` (cppyplot.hpp:314-353).  Returns `none` when the C++
function would throw (out-of-range `substr`). -/
def dedent_string (raw : List Char) : Option (List Char) :=
  let r := non_empty_line_idx raw
  if r.2 = 0 then some raw
  else dedent_loop raw r.2 (List.drop r.1 raw) r.1 true (-1) 0 []

/-- The 13 scalar element types for which `ValType` has an explicit
specialization (cppyplot.hpp:76-152). -/
inductive RegisteredType
  | tchar | tschar | tuchar | tshort | tushort | tint | tuint
  | tlong | tulong | tlonglong | tulonglong | tfloat | tdouble
  deriving DecidableEq, Fintype

/-- Byte size (`sizeof`) of each registered scalar type on the target
platform.  The header hard-codes a Windows Python path, so the LLP64 data
model is used: `long` is 4 bytes. -/
def sizeofC : RegisteredType → Nat
  | .tchar => 1 | .tschar => 1 | .tuchar => 1
  | .tshort => 2 | .tushort => 2
  | .tint => 4 | .tuint => 4
  | .tlong => 4 | .tulong => 4
  | .tlonglong => 8 | .tulonglong => 8
  | .tfloat => 4 | .tdouble => 8

/-- An arbitrary C++ element type: either one of the 13 registered scalar
types, or any other type (identified by an abstract index), which falls back to
the primary `ValType` template. -/
inductive CElemType
  | reg : RegisteredType → CElemType
  | unregistered : Nat → CElemType
  deriving DecidableEq

/-- The two static members of a `ValType` specialization. -/
structure TypeDesc where
  elem_size : Nat
  typestr : String
  deriving DecidableEq

/-- `ValType<T>` (cppyplot.hpp:70-152): primary template gives the sentinel
`{0, "0"}`; each specialization pairs `sizeof(T)` with a one-character
python-struct tag. -/
def ValType : CElemType → TypeDesc
  | .reg .tchar => ⟨sizeofC .tchar, "c"⟩
  | .reg .tschar => ⟨sizeofC .tschar, "b"⟩
  | .reg .tuchar => ⟨sizeofC .tuchar, "B"⟩
  | .reg .tshort => ⟨sizeofC .tshort, "h"⟩
  | .reg .tushort => ⟨sizeofC .tushort, "H"⟩
  | .reg .tint => ⟨sizeofC .tint, "i"⟩
  | .reg .tuint => ⟨sizeofC .tuint, "I"⟩
  | .reg .tlong => ⟨sizeofC .tlong, "l"⟩
  | .reg .tulong => ⟨sizeofC .tulong, "L"⟩
  | .reg .tlonglong => ⟨sizeofC .tlonglong, "q"⟩
  | .reg .tulonglong => ⟨sizeofC .tulonglong, "Q"⟩
  | .reg .tfloat => ⟨sizeofC .tfloat, "f"⟩
  | .reg .tdouble => ⟨sizeofC .tdouble, "d"⟩
  | .unregistered _ => ⟨0, "0"⟩

/-- The registry contents, in source order. -/
def registeredTypes : List RegisteredType :=
  [.tchar, .tschar, .tuchar, .tshort, .tushort, .tint, .tuint,
   .tlong, .tulong, .tlonglong, .tulonglong, .tfloat, .tdouble]

/-- A `std::vector<T>`: element type, elements (values abstracted to `Int`)
and the address of its contiguous storage (`data()`). -/
structure VecCont where
  elem : CElemType
  data : List Int
  addr : Nat

/-- An Eigen dense container: element type, dimensions and the address of its
contiguous storage. -/
structure EigenCont where
  elem : CElemType
  rows : Nat
  cols : Nat
  addr : Nat

/-- A container accepted by `send_container`: either of the two adapter
families (cppyplot.hpp:155-193). -/
inductive Container
  | vec : VecCont → Container
  | eigen : EigenCont → Container

/-- The `value_type` of the container. -/
def cont_elem : Container → CElemType
  | .vec v => v.elem
  | .eigen e => e.elem

/-- `cont.size()`: `std::vector::size` is the element count; the Eigen `size()`
is `rows() * cols()`. -/
def cont_size : Container → Nat
  | .vec v => v.data.length
  | .eigen e => e.rows * e.cols

/-- `size_str` (cppyplot.hpp:161-165, 182-186): `std::to_string` of the
element count. -/
def size_str (c : Container) : String := Nat.repr (cont_size c)

/-- `shape_str` (cppyplot.hpp:155-159, 176-180). -/
def shape_str : Container → String
  | .vec v => "(" ++ Nat.repr v.data.length ++ ",)"
  | .eigen e => "(" ++ Nat.repr e.rows ++ "," ++ Nat.repr e.cols ++ ")"

/-- `void_ptr` (cppyplot.hpp:167-171, 188-192): address of the storage owned by the
container. -/
def void_ptr : Container → Nat
  | .vec v => v.addr
  | .eigen e => e.addr

/-- `create_header` (cppyplot.hpp:240-262), mirroring the successive appends. -/
def create_header (key : String) (cont : Container) : String :=
  let header := "data|"
  let header := header ++ key
  let header := header ++ "|"
  let header := header ++ (ValType (cont_elem cont)).typestr
  let header := header ++ "|"
  let header := header ++ size_str cont
  let header := header ++ "|"
  let header := header ++ shape_str cont
  header

/-- One ZMQ message: either a textual message (header / command text /
sentinel) or a zero-copy payload, recorded as the address of the referenced
storage together with the byte length passed to `zmq::message_t`. -/
inductive Msg
  | str : String → Msg
  | payload : Nat → Nat → Msg
  deriving DecidableEq

/-- Observable state of a `cppyplot` session: the messages sent on the socket
so far, in order, and the contents of the `plot_cmds_` stringstream. -/
structure SessionState where
  sent : List Msg
  plot_cmds : String
  deriving DecidableEq

/-- `push` (cppyplot.hpp:228-229): `plot_cmds_ << cmds << '\n'`. -/
def push (st : SessionState) (cmds : String) : SessionState :=
  { st with plot_cmds := st.plot_cmds ++ cmds ++ "\n" }

/-- `raw` (cppyplot.hpp:234-238): dedent, then append to `plot_cmds_`
(`none` when `dedent_string` throws). -/
def raw_member (st : SessionState) (input_cmds : List Char) : Option SessionState :=
  (dedent_string input_cmds).map
    (fun d => { st with plot_cmds := st.plot_cmds ++ d.asString })

/-- `send_container` (cppyplot.hpp:264-276): send the header message, then the
zero-copy payload of `elem_size * cont.size()` bytes at `void_ptr(cont)`. -/
def send_container (st : SessionState) (key : String) (cont : Container) :
    SessionState :=
  let header := create_header key cont
  let st1 := { st with sent := st.sent ++ [Msg.str header] }
  { st1 with
    sent := st1.sent ++
      [Msg.payload (void_ptr cont)
        ((ValType (cont_elem cont)).elem_size * cont_size cont)] }

/-- `data_args` (cppyplot.hpp:278-291): fold `send_container` over the
name/container pairs in order, send the accumulated command text, send the
literal `"finalize"`, then clear `plot_cmds_`. -/
def data_args (st : SessionState) (args : List (String × Container)) :
    SessionState :=
  let st1 := args.foldl (fun s p => send_container s p.1 p.2) st
  let st2 := { st1 with sent := st1.sent ++ [Msg.str st1.plot_cmds] }
  let st3 := { st2 with sent := st2.sent ++ [Msg.str "finalize"] }
  { st3 with plot_cmds := "" }

/-- The header/payload message pair produced for one name/container pair. -/
def pair_msgs (p : String × Container) : List Msg :=
  [Msg.str (create_header p.1 p.2),
   Msg.payload (void_ptr p.2)
     ((ValType (cont_elem p.2)).elem_size * cont_size p.2)]

/-- All header/payload messages of a batch, in caller order. -/
def batch_msgs (args : List (String × Container)) : List Msg :=
  (args.map pair_msgs).flatten

/-- Rendering of the shape-string grammar of the spec: a parenthesized dimension
list, with a trailing comma for rank 1.  Modelled from the spec ("Shape string
grammar") to relate element counts to the dimensions of a rendered shape. -/
def render_dims : List Nat → String
  | [n] => "(" ++ Nat.repr n ++ ",)"
  | [r, c] => "(" ++ Nat.repr r ++ "," ++ Nat.repr c ++ ")"
  | _ => ""

theorem foldl_send_container (args : List (String × Container)) :
    ∀ st : SessionState,
      (args.foldl (fun s p => send_container s p.1 p.2) st).sent
          = st.sent ++ batch_msgs args ∧
      (args.foldl (fun s p => send_container s p.1 p.2) st).plot_cmds
          = st.plot_cmds := by
  induction args with
  | nil => intro st; simp [batch_msgs]
  | cons p rest ih =>
    intro st
    simp only [List.foldl_cons]
    obtain ⟨h1, h2⟩ := ih (send_container st p.1 p.2)
    refine ⟨?_, ?_⟩
    · rw [h1]
      simp [send_container, batch_msgs, pair_msgs, List.append_assoc]
    · rw [h2]
      simp [send_container]

theorem batch_msgs_length (args : List (String × Container)) :
    (batch_msgs args).length = 2 * args.length := by
  induction args with
  | nil => rfl
  | cons p rest ih =>
    simp only [batch_msgs, List.map_cons, List.flatten_cons,
      List.length_append, List.length_cons] at *
    simp [pair_msgs, ih]
    omega

/-- C3: a batch of N name/container pairs produces exactly 2N+2 messages:
per pair, in caller order, one header message then one zero-copy payload
message of `element_count * elem_size` bytes at the storage address of the
container itself; then the accumulated command text; then the literal `"finalize"`;
afterwards the command buffer is empty. -/
theorem data_args_batch_framing (st : SessionState)
    (args : List (String × Container)) :
    (data_args st args).sent
        = st.sent ++ batch_msgs args
            ++ [Msg.str st.plot_cmds, Msg.str "finalize"] ∧
    (data_args st args).plot_cmds = "" ∧
    (data_args st args).sent.length = st.sent.length + (2 * args.length + 2) := by
  obtain ⟨h1, h2⟩ := foldl_send_container args st
  refine ⟨?_, rfl, ?_⟩
  · show (args.foldl (fun s p => send_container s p.1 p.2) st).sent
        ++ [Msg.str (args.foldl (fun s p => send_container s p.1 p.2) st).plot_cmds]
        ++ [Msg.str "finalize"] = _
    rw [h1, h2]
    simp [List.append_assoc]
  · show ((args.foldl (fun s p => send_container s p.1 p.2) st).sent
        ++ [Msg.str (args.foldl (fun s p => send_container s p.1 p.2) st).plot_cmds]
        ++ [Msg.str "finalize"]).length = _
    rw [h1]
    simp [batch_msgs_length]

/-- C5: dedent removes a uniform indentation equal to that of the first line
(`"  a\n  b\n"` becomes `"a\nb\n"`) and preserves indentation beyond the
reference amount (`"  a\n    b\n"` becomes `"a\n  b\n"`). -/
theorem dedent_string_examples :
    dedent_string "  a\n  b\n".data = some "a\nb\n".data ∧
    dedent_string "  a\n    b\n".data = some "a\n  b\n".data := by
  exact ⟨by decide, by decide⟩

/-- C6: the header builder returns exactly the pipe-delimited concatenation
`"data|" ++ name ++ "|" ++ tag ++ "|" ++ count ++ "|" ++ shape`, for every
name — including a name containing the delimiter, which is embedded as-is. -/
theorem create_header_format :
    (∀ (key : String) (cont : Container),
        create_header key cont
          = "data|" ++ key ++ "|" ++ (ValType (cont_elem cont)).typestr ++ "|"
              ++ size_str cont ++ "|" ++ shape_str cont) ∧
    create_header "a|b" (.vec ⟨.reg .tdouble, [], 7⟩) = "data|a|b|d|0|(0,)" := by
  refine ⟨?_, by decide⟩
  intro key cont
  simp [create_header, String.append_assoc]

/-- C7: the registry has exactly 13 registered scalar types; every registered
type gets a distinct one-character tag from the alphabet
`c,b,B,h,H,i,I,l,L,q,Q,f,d` and a width equal to the byte size of the type. -/
theorem valtype_registry :
    registeredTypes.length = 13 ∧
    (∀ t : RegisteredType, t ∈ registeredTypes) ∧
    (registeredTypes.map (fun t => (ValType (.reg t)).typestr)).Nodup ∧
    (∀ t : RegisteredType,
        ((ValType (.reg t)).typestr).length = 1 ∧
        (ValType (.reg t)).typestr
            ∈ ["c", "b", "B", "h", "H", "i", "I", "l", "L", "q", "Q", "f", "d"] ∧
        (ValType (.reg t)).elem_size = sizeofC t) := by
  refine ⟨rfl, ?_, ?_, ?_⟩ <;> decide

/-- C8: an element type outside the registered set maps to the sentinel
descriptor (tag `"0"`, width 0); encoding does not fail: the header message
carries tag `"0"` and the payload message has 0 bytes. -/
theorem unregistered_sentinel (u : Nat) (st : SessionState) (key : String)
    (d : List Int) (a : Nat) :
    ValType (.unregistered u) = ⟨0, "0"⟩ ∧
    (send_container st key (.vec ⟨.unregistered u, d, a⟩)).sent
      = st.sent ++
          [Msg.str ("data|" ++ key ++ "|" ++ "0" ++ "|" ++ Nat.repr d.length
              ++ "|" ++ ("(" ++ Nat.repr d.length ++ ",)")),
           Msg.payload a 0] := by
  refine ⟨rfl, ?_⟩
  simp [send_container, create_header, ValType, cont_elem, cont_size, size_str,
    shape_str, void_ptr, String.append_assoc]

/-- C9: a rank-1 sequence of length N has shape string `"(N,)"` and element
count N; a rank-2 container with R rows and C columns has shape string
`"(R,C)"` and element count R*C; for every container the element count equals
the product of the dimensions its shape string renders. -/
theorem shape_and_count :
    (∀ v : VecCont,
        shape_str (.vec v) = "(" ++ Nat.repr v.data.length ++ ",)"
          ∧ cont_size (.vec v) = v.data.length) ∧
    (∀ e : EigenCont,
        shape_str (.eigen e)
            = "(" ++ Nat.repr e.rows ++ "," ++ Nat.repr e.cols ++ ")"
          ∧ cont_size (.eigen e) = e.rows * e.cols) ∧
    (∀ c : Container, ∃ dims : List Nat,
        shape_str c = render_dims dims ∧ cont_size c = dims.prod) := by
  refine ⟨fun v => ⟨rfl, by simp [cont_size]⟩,
    fun e => ⟨rfl, by simp [cont_size]⟩, ?_⟩
  intro c
  cases c with
  | vec v => exact ⟨[v.data.length], rfl, by simp [cont_size]⟩
  | eigen e => exact ⟨[e.rows, e.cols], rfl, by simp [cont_size]⟩

/-- C1 (evidence of the defect): on `"  a\n x\n"`, whose second line has less
indentation (one space) than the reference indentation k = 2, the code drops
the non-whitespace character `x` entirely: the output is `"a\n\n"`. -/
theorem dedent_drops_underindented_content :
    dedent_string "  a\n x\n".data = some "a\n\n".data ∧
    'x' ∈ "  a\n x\n".data ∧ 'x' ∉ "a\n\n".data := by
  exact ⟨by decide, by decide, by decide⟩

/-- C2 (evidence of the defect): on `"  a\n\n  b\n"` the empty line does not
survive as its own line: the output is `"a\n b\n"`, with one newline fewer
than the three of the input, and the following line is under-stripped. -/
theorem dedent_merges_blank_line :
    dedent_string "  a\n\n  b\n".data = some "a\n b\n".data ∧
    ("  a\n\n  b\n".data.count '\n' = 3 ∧ "a\n b\n".data.count '\n' = 2) := by
  exact ⟨by decide, by decide, by decide⟩

theorem dedent_loop_out (raw : List Char) (k : Nat) (l : List Char) :
    ∀ (i : Nat) (ps : Bool) (ls : Int) (cur : Nat) (out : List Char),
      dedent_loop raw k l i ps ls cur out
        = (dedent_loop raw k l i ps ls cur []).map (fun t => out ++ t) := by
  induction l with
  | nil =>
    intro i ps ls cur out
    simp [dedent_loop]
  | cons c rest ih =>
    intro i ps ls cur out
    by_cases hps : ps
    · subst hps
      by_cases hw : isWsp c
      · simp only [dedent_loop, hw, if_true]
        exact ih (i + 1) true ls (cur + 1) out
      · simp only [dedent_loop, hw, if_true, if_false, Bool.false_eq_true]
        exact ih (i + 1) false (i : Int) cur out
    · have hps' : ps = false := by
        cases ps
        · rfl
        · exact absurd rfl hps
      subst hps'
      by_cases hnl : c = '\n'
      · by_cases hls : ls ≠ -1
        · simp only [dedent_loop, hnl, Bool.false_eq_true, if_false, ite_true,
            ite_false, if_pos hls]
          cases hsub : substrV raw (ls - ((cur : Int) - (k : Int)))
              (wrap32 ((i : Int) - (ls - ((cur : Int) - (k : Int))) + 1)) with
          | none => simp
          | some seg =>
            simp only [List.nil_append]
            rw [ih (i + 1) true (-1) 0 (out ++ seg), ih (i + 1) true (-1) 0 seg]
            cases dedent_loop raw k rest (i + 1) true (-1) 0 [] with
            | none => simp
            | some t2 => simp [List.append_assoc]
        · simp only [dedent_loop, hnl, Bool.false_eq_true, if_false, ite_true,
            ite_false, if_neg hls]
          exact ih (i + 1) true (-1) 0 out
      · simp only [dedent_loop, hnl, if_false, Bool.false_eq_true, ite_false]
        exact ih (i + 1) false ls cur out

theorem dedent_loop_ws_phase (raw : List Char) (k : Nat) :
    ∀ (n i cur : Nat) (out : List Char),
      (∀ j, i ≤ j → j < i + n → ∃ c, raw[j]? = some c ∧ isWsp c = true) →
      i + n ≤ raw.length →
      dedent_loop raw k (raw.drop i) i true (-1) cur out
        = dedent_loop raw k (raw.drop (i + n)) (i + n) true (-1) (cur + n) out := by
  intro n
  induction n with
  | zero => intro i cur out _ _; rfl
  | succ n ih =>
    intro i cur out hws hle
    have hi : i < raw.length := by omega
    obtain ⟨c, hc, hcw⟩ := hws i le_rfl (by omega)
    have hc' : raw[i] = c := by
      rw [List.getElem?_eq_getElem hi] at hc
      exact Option.some_injective _ hc
    rw [List.drop_eq_getElem_cons hi]
    simp only [dedent_loop, hc', hcw, if_true]
    have h1 : i + (n + 1) = (i + 1) + n := by omega
    have h2 : cur + (n + 1) = (cur + 1) + n := by omega
    rw [h1, h2]
    exact ih (i + 1) (cur + 1) out
      (fun j hj1 hj2 => hws j (by omega) (by omega)) (by omega)

theorem dedent_loop_scan_phase (raw : List Char) (k : Nat) :
    ∀ (n i : Nat) (ls : Int) (cur : Nat) (out : List Char),
      (∀ j, i ≤ j → j < i + n → ∃ c, raw[j]? = some c ∧ c ≠ '\n') →
      i + n ≤ raw.length →
      dedent_loop raw k (raw.drop i) i false ls cur out
        = dedent_loop raw k (raw.drop (i + n)) (i + n) false ls cur out := by
  intro n
  induction n with
  | zero => intro i ls cur out _ _; rfl
  | succ n ih =>
    intro i ls cur out hnn hle
    have hi : i < raw.length := by omega
    obtain ⟨c, hc, hcn⟩ := hnn i le_rfl (by omega)
    have hc' : raw[i] = c := by
      rw [List.getElem?_eq_getElem hi] at hc
      exact Option.some_injective _ hc
    rw [List.drop_eq_getElem_cons hi]
    simp only [dedent_loop, hc', hcn, if_true, if_false, Bool.false_eq_true,
      ite_false]
    have h1 : i + (n + 1) = (i + 1) + n := by omega
    rw [h1]
    exact ih (i + 1) ls cur out
      (fun j hj1 hj2 => hnn j (by omega) (by omega)) (by omega)

theorem neli_loop_char (raw : List Char) :
    ∀ (l : List Char) (i p ns : Nat),
      l = raw.drop i → i ≤ raw.length → p + ns = i →
      (∀ j, p ≤ j → j < i → ∃ c, raw[j]? = some c ∧ isWsp c = true) →
      ∃ (p2 ns2 : Nat),
        neli_loop l i ((p : Int) - 1) ns = (((p2 : Nat) : Int) - 1, ns2) ∧
        p2 + ns2 ≤ raw.length ∧
        (∀ j, p2 ≤ j → j < p2 + ns2 → ∃ c, raw[j]? = some c ∧ isWsp c = true) ∧
        (p2 + ns2 = raw.length ∨
          ∃ c, raw[p2 + ns2]? = some c ∧ isWsp c = false ∧ c ≠ '\n') := by
  intro l
  induction l with
  | nil =>
    intro i p ns hl hle hpi hws
    have hi : raw.length ≤ i := by
      rw [← List.drop_eq_nil_iff]
      exact hl.symm
    refine ⟨p, ns, rfl, by omega, fun j hj1 hj2 => hws j hj1 (by omega), ?_⟩
    exact Or.inl (by omega)
  | cons c rest ih =>
    intro i p ns hl hle hpi hws
    have hi : i < raw.length := by
      by_contra hcon
      rw [List.drop_eq_nil_of_le (by omega)] at hl
      exact List.noConfusion hl
    have hread : raw[i]? = some c := by
      have h0 : (raw.drop i)[0]? = raw[i + 0]? := List.getElem?_drop raw i 0
      rw [← hl] at h0
      simpa using h0.symm
    have hrest : rest = raw.drop (i + 1) := by
      have h1 : (raw.drop i).drop 1 = raw.drop (i + 1) := List.drop_drop 1 i raw
      rw [← hl] at h1
      simpa using h1
    by_cases hnl : c = '\n'
    · have hcast : (i : Int) = ((i + 1 : Nat) : Int) - 1 := by push_cast; ring
      simp only [neli_loop, hnl, if_true, ite_true]
      rw [hcast]
      exact ih (i + 1) (i + 1) 0 hrest (by omega) (by omega)
        (fun j hj1 hj2 => absurd hj2 (by omega))
    · by_cases hw : isWsp c
      · simp only [neli_loop, hnl, hw, if_true, if_false, ite_true, ite_false]
        refine ih (i + 1) p (ns + 1) hrest (by omega) (by omega) ?_
        intro j hj1 hj2
        by_cases hji : j = i
        · exact ⟨c, hji ▸ hread, hw⟩
        · exact hws j hj1 (by omega)
      · simp only [neli_loop, hnl, hw, if_false, ite_false, Bool.false_eq_true]
        refine ⟨p, ns, rfl, by omega, fun j hj1 hj2 => hws j hj1 (by omega), ?_⟩
        exact Or.inr ⟨c, hpi ▸ hread, by simpa using hw, hnl⟩

theorem non_empty_line_idx_char (raw : List Char) :
    (non_empty_line_idx raw).1 + (non_empty_line_idx raw).2 ≤ raw.length ∧
    (∀ j, (non_empty_line_idx raw).1 ≤ j →
      j < (non_empty_line_idx raw).1 + (non_empty_line_idx raw).2 →
      ∃ c, raw[j]? = some c ∧ isWsp c = true) ∧
    ((non_empty_line_idx raw).1 + (non_empty_line_idx raw).2 = raw.length ∨
      ∃ c, raw[(non_empty_line_idx raw).1 + (non_empty_line_idx raw).2]? = some c ∧
        isWsp c = false ∧ c ≠ '\n') := by
  obtain ⟨p2, ns2, heq, hle, hws, hend⟩ :=
    neli_loop_char raw raw 0 0 0 (List.drop_zero raw).symm (by omega) rfl
      (fun j hj1 hj2 => absurd hj2 (by omega))
  have hnn : non_empty_line_idx raw = (p2, ns2) := by
    unfold non_empty_line_idx
    have h0 : ((0 : Nat) : Int) - 1 = -1 := by norm_num
    rw [← h0, heq]
    simp only
    congr 1
    omega
  rw [hnn]
  exact ⟨hle, hws, hend⟩

theorem dedent_string_nil : dedent_string [] = some [] := rfl

theorem dedent_string_fix_of_head (c0 : Char) (t : List Char)
    (hw : isWsp c0 = false) (hnl : c0 ≠ '\n') :
    dedent_string (c0 :: t) = some (c0 :: t) := by
  unfold dedent_string non_empty_line_idx neli_loop
  simp [hnl, hw]

/-- C4: dedent is idempotent: `dedent(dedent(s)) = dedent(s)` (composition in
the `Option` monad, `none` being a thrown exception; the length bound reflects
the 32-bit index arithmetic of the C++ code). -/
theorem dedent_string_idem (s : List Char) (hlen : s.length < 2 ^ 32) :
    (dedent_string s).bind dedent_string = dedent_string s := by
  have hlen4 : s.length < 4294967296 := by
    norm_num at hlen
    exact hlen
  by_cases hk : (non_empty_line_idx s).2 = 0
  · have h1 : dedent_string s = some s := by
      unfold dedent_string
      simp [hk]
    rw [h1, Option.some_bind]
    exact h1
  · obtain ⟨start, k, hnn⟩ : ∃ st kk, non_empty_line_idx s = (st, kk) := ⟨_, _, rfl⟩
    obtain ⟨hle, hws, hend⟩ := non_empty_line_idx_char s
    rw [hnn] at hk hle hws hend
    simp only at hk hle hws hend
    have hkpos : 1 ≤ k := by omega
    have hloop : dedent_string s
        = dedent_loop s k (s.drop start) start true (-1) 0 [] := by
      simp [dedent_string, hnn, hk]
    have hphase := dedent_loop_ws_phase s k k start 0 [] hws hle
    rw [Nat.zero_add] at hphase
    rw [hloop, hphase]
    rcases hend with hEnd | ⟨c0, hc0, hc0w, hc0n⟩
    · rw [List.drop_eq_nil_of_le (by omega)]
      simp only [dedent_loop, Option.some_bind]
      exact dedent_string_nil
    · have hm : start + k < s.length := by
        by_contra hcon
        rw [List.getElem?_eq_none (by omega)] at hc0
        exact Option.noConfusion hc0
      have hc0' : s[start + k] = c0 := by
        rw [List.getElem?_eq_getElem hm] at hc0
        exact Option.some_injective _ hc0
      rw [List.drop_eq_getElem_cons hm, hc0']
      simp only [dedent_loop, hc0w, Bool.false_eq_true, if_false, ite_false,
        if_true, ite_true]
      by_cases hexnl : ∃ q, (start + k + 1 ≤ q ∧ q < s.length) ∧ s[q]? = some '\n'
      · have hq := Nat.find_spec hexnl
        obtain ⟨⟨hq1, hq2⟩, hq3⟩ := hq
        have hqmin := fun j (hj : j < Nat.find hexnl) => Nat.find_min hexnl hj
        have harith : start + k + 1 + (Nat.find hexnl - (start + k + 1))
            = Nat.find hexnl := by omega
        have hscan := dedent_loop_scan_phase s k
          (Nat.find hexnl - (start + k + 1)) (start + k + 1)
          ((start + k : Nat) : Int) k [] ?nonewline (by omega)
        case nonewline =>
          intro j hj1 hj2
          rw [harith] at hj2
          refine ⟨s[j], List.getElem?_eq_getElem (by omega), ?_⟩
          intro hcon
          exact hqmin j hj2 ⟨⟨hj1, by omega⟩,
            by rw [List.getElem?_eq_getElem (by omega), hcon]⟩
        rw [harith] at hscan
        rw [hscan]
        have hq3' : s[Nat.find hexnl] = '\n' := by
          rw [List.getElem?_eq_getElem hq2] at hq3
          exact Option.some_injective _ hq3
        rw [List.drop_eq_getElem_cons hq2, hq3']
        have hlsne : ((start + k : Nat) : Int) ≠ -1 := by omega
        have hwrap : wrap32 ((Nat.find hexnl : Int) - ((start + k : Nat) : Int) + 1)
            = Nat.find hexnl - (start + k) + 1 := by
          unfold wrap32
          rw [Int.emod_eq_of_lt (by omega)
            (by rw [show ((2 : Int) ^ 32) = 4294967296 from by norm_num]; omega)]
          omega
        have hsubst : substrV s ((start + k : Nat) : Int)
            (Nat.find hexnl - (start + k) + 1)
            = some (c0 :: (s.drop (start + k + 1)).take (Nat.find hexnl - (start + k))) := by
          unfold substrV
          rw [if_neg (by push_cast; omega), Int.toNat_natCast,
            List.drop_eq_getElem_cons hm, hc0', List.take_succ_cons]
        simp only [dedent_loop, Bool.false_eq_true, if_false, ite_false,
          if_true, ite_true, if_pos hlsne, sub_self, sub_zero, hwrap, hsubst,
          List.nil_append]
        rw [dedent_loop_out s k (s.drop (Nat.find hexnl + 1)) (Nat.find hexnl + 1)
          true (-1) 0 (c0 :: (s.drop (start + k + 1)).take (Nat.find hexnl - (start + k)))]
        cases hY : dedent_loop s k (s.drop (Nat.find hexnl + 1))
            (Nat.find hexnl + 1) true (-1) 0 [] with
        | none => simp
        | some t2 =>
          simp only [Option.map_some, Option.some_bind, List.cons_append]
          exact dedent_string_fix_of_head c0 _ hc0w hc0n
      · have hscan := dedent_loop_scan_phase s k
          (s.length - (start + k + 1)) (start + k + 1)
          ((start + k : Nat) : Int) k [] ?nonl (by omega)
        case nonl =>
          intro j hj1 hj2
          refine ⟨s[j], List.getElem?_eq_getElem (by omega), ?_⟩
          intro hcon
          exact hexnl ⟨j, ⟨hj1, by omega⟩,
            by rw [List.getElem?_eq_getElem (by omega), hcon]⟩
        rw [hscan,
          show start + k + 1 + (s.length - (start + k + 1)) = s.length from by omega,
          List.drop_eq_nil_of_le le_rfl]
        simp only [dedent_loop, Option.some_bind]
        exact dedent_string_nil

theorem takeWhile_length_eq_of (p : Char → Bool) :
    ∀ (l : List Char) (n : Nat),
      (∀ j, j < n → ∃ c, l[j]? = some c ∧ p c = true) →
      (∃ c, l[n]? = some c ∧ p c = false) →
      (l.takeWhile p).length = n := by
  intro l
  induction l with
  | nil =>
    intro n h1 h2
    obtain ⟨c, hc, _⟩ := h2
    simp at hc
  | cons x xs ih =>
    intro n h1 h2
    cases n with
    | zero =>
      obtain ⟨c, hc, hcp⟩ := h2
      simp only [List.getElem?_cons_zero, Option.some_inj] at hc
      subst hc
      simp [List.takeWhile_cons, hcp]
    | succ n =>
      obtain ⟨c, hc, hcp⟩ := h1 0 (by omega)
      simp only [List.getElem?_cons_zero, Option.some_inj] at hc
      subst hc
      simp only [List.takeWhile_cons, hcp, if_true, ite_true, List.length_cons]
      rw [ih n ?_ ?_]
      · intro j hj
        have hj1 := h1 (j + 1) (by omega)
        simpa using hj1
      · obtain ⟨c2, hc2, hc2p⟩ := h2
        exact ⟨c2, by simpa using hc2, hc2p⟩

theorem dedent_loop_complete_lines (raw : List Char) (k start : Nat)
    (hlen4 : raw.length < 4294967296)
    (hlines : ∀ b, b < raw.length → start ≤ b →
      (b = start ∨ raw[b - 1]? = some '\n') →
      k ≤ ((raw.drop b).takeWhile isWsp).length) :
    ∀ (l : List Char) (i : Nat) (ps : Bool) (ls : Int) (cur : Nat)
      (out : List Char) (segs : List (List Char)),
      l = raw.drop i → i ≤ raw.length →
      out = segs.flatten →
      (∀ g ∈ segs, g ≠ [] ∧ g.getLast? = some '\n' ∧
        ∃ u v, raw.drop start = u ++ g ++ v) →
      (ps = true → ∃ b, start ≤ b ∧ b + cur = i ∧
        (b = start ∨ raw[b - 1]? = some '\n') ∧
        (∀ j, b ≤ j → j < i → ∃ c, raw[j]? = some c ∧ isWsp c = true)) →
      (ps = false → ∃ b, start ≤ b ∧
        (b = start ∨ raw[b - 1]? = some '\n') ∧
        ls = ((b + cur : Nat) : Int) ∧ k ≤ cur ∧ b + cur < i) →
      ∃ t, dedent_loop raw k l i ps ls cur out = some t ∧
        ∃ segs2 : List (List Char), t = segs2.flatten ∧
          ∀ g ∈ segs2, g ≠ [] ∧ g.getLast? = some '\n' ∧
            ∃ u v, raw.drop start = u ++ g ++ v := by
  intro l
  induction l with
  | nil =>
    intro i ps ls cur out segs hl hi hout hsegs hpt hpf
    exact ⟨out, rfl, segs, hout, hsegs⟩
  | cons c rest ih =>
    intro i ps ls cur out segs hl hi hout hsegs hpt hpf
    have hilt : i < raw.length := by
      by_contra hcon
      rw [List.drop_eq_nil_of_le (by omega)] at hl
      exact List.noConfusion hl
    have hread : raw[i]? = some c := by
      have h0 : (raw.drop i)[0]? = raw[i + 0]? := List.getElem?_drop raw i 0
      rw [← hl] at h0
      simpa using h0.symm
    have hrest : rest = raw.drop (i + 1) := by
      have h1 : (raw.drop i).drop 1 = raw.drop (i + 1) := List.drop_drop 1 i raw
      rw [← hl] at h1
      simpa using h1
    cases ps with
    | true =>
      obtain ⟨b, hb1, hb2, hb3, hb4⟩ := hpt rfl
      by_cases hw : isWsp c
      · simp only [dedent_loop, hw, if_true, ite_true]
        refine ih (i + 1) true ls (cur + 1) out segs hrest (by omega) hout hsegs
          ?_ (by simp)
        intro _
        refine ⟨b, hb1, by omega, hb3, ?_⟩
        intro j hj1 hj2
        by_cases hji : j = i
        · exact ⟨c, hji ▸ hread, hw⟩
        · exact hb4 j hj1 (by omega)
      · simp only [dedent_loop, hw, Bool.false_eq_true, if_false, ite_false]
        have hcur : ((raw.drop b).takeWhile isWsp).length = cur := by
          apply takeWhile_length_eq_of
          · intro j hj
            obtain ⟨cj, hcj, hcjw⟩ := hb4 (b + j) (by omega) (by omega)
            exact ⟨cj, by rw [List.getElem?_drop]; exact hcj, hcjw⟩
          · refine ⟨c, ?_, ?_⟩
            · rw [List.getElem?_drop, hb2]
              exact hread
            · simpa using hw
        have hkc : k ≤ cur := hcur ▸ hlines b (by omega) hb1 hb3
        refine ih (i + 1) false ((i : Nat) : Int) cur out segs hrest (by omega)
          hout hsegs (by simp) ?_
        intro _
        exact ⟨b, hb1, hb3, by rw [hb2], hkc, by omega⟩
    | false =>
      obtain ⟨b, hb1, hb3, hls, hkc, hbi⟩ := hpf rfl
      by_cases hnl : c = '\n'
      · have hlsne : ls ≠ -1 := by rw [hls]; omega
        simp only [dedent_loop, hnl, Bool.false_eq_true, if_false, ite_true,
          ite_false, if_pos hlsne]
        have hls2 : ls - ((cur : Int) - (k : Int)) = ((b + k : Nat) : Int) := by
          rw [hls]
          push_cast
          ring
        rw [hls2]
        have hwrap : wrap32 ((i : Int) - ((b + k : Nat) : Int) + 1)
            = i - (b + k) + 1 := by
          unfold wrap32
          rw [Int.emod_eq_of_lt (by omega)
            (by rw [show ((2 : Int) ^ 32) = 4294967296 from by norm_num]; omega)]
          omega
        have hsubst : substrV raw ((b + k : Nat) : Int) (i - (b + k) + 1)
            = some ((raw.drop (b + k)).take (i - (b + k) + 1)) := by
          unfold substrV
          rw [if_neg (by push_cast; omega), Int.toNat_natCast]
        rw [hwrap, hsubst]
        have hseglen : ((raw.drop (b + k)).take (i - (b + k) + 1)).length
            = i - (b + k) + 1 := by
          rw [List.length_take, List.length_drop]
          omega
        have hsegne : (raw.drop (b + k)).take (i - (b + k) + 1) ≠ [] := by
          intro hcon
          rw [hcon] at hseglen
          simp at hseglen
        have hseglast : ((raw.drop (b + k)).take (i - (b + k) + 1)).getLast?
            = some '\n' := by
          rw [List.getLast?_eq_getElem?, hseglen,
            show i - (b + k) + 1 - 1 = i - (b + k) from by omega,
            List.getElem?_take, if_pos (by omega), List.getElem?_drop,
            show b + k + (i - (b + k)) = i from by omega]
          exact hnl ▸ hread
        have hdropsplit : raw.drop (b + k)
            = (raw.drop (b + k)).take (i - (b + k) + 1) ++ raw.drop (i + 1) := by
          conv_lhs => rw [← List.take_append_drop (i - (b + k) + 1) (raw.drop (b + k))]
          congr 1
          rw [List.drop_drop]
          congr 1
          omega
        have hseginf : ∃ u v, raw.drop start
            = u ++ (raw.drop (b + k)).take (i - (b + k) + 1) ++ v := by
          refine ⟨(raw.drop start).take (b + k - start), raw.drop (i + 1), ?_⟩
          conv_lhs => rw [← List.take_append_drop (b + k - start) (raw.drop start)]
          rw [List.append_assoc]
          congr 1
          rw [List.drop_drop, show start + (b + k - start) = b + k from by omega]
          exact hdropsplit
        refine ih (i + 1) true (-1) 0
          (out ++ (raw.drop (b + k)).take (i - (b + k) + 1))
          (segs ++ [(raw.drop (b + k)).take (i - (b + k) + 1)]) hrest (by omega)
          ?_ ?_ ?_ (by simp)
        · rw [hout]
          simp
        · intro g hg
          rcases List.mem_append.mp hg with hg1 | hg1
          · exact hsegs g hg1
          · have hg2 : g = (raw.drop (b + k)).take (i - (b + k) + 1) := by
              simpa using hg1
            subst hg2
            exact ⟨hsegne, hseglast, hseginf⟩
        · intro _
          refine ⟨i + 1, by omega, by omega, Or.inr ?_, ?_⟩
          · rw [show i + 1 - 1 = i from by omega]
            exact hnl ▸ hread
          · intro j hj1 hj2
            exact absurd hj1 (by omega)
      · simp only [dedent_loop, hnl, Bool.false_eq_true, if_false, ite_false]
        refine ih (i + 1) false ls cur out segs hrest (by omega) hout hsegs
          (by simp) ?_
        intro _
        exact ⟨b, hb1, hb3, hls, hkc, by omega⟩

/-- C10 (amended): for an input of positive reference indentation k in which
every line from the first non-empty line onward has a leading whitespace run
of at least k, dedent succeeds and its output is a concatenation of non-empty
newline-terminated segments of the input taken from the first non-empty line
onward; in particular characters before the first non-empty line are omitted
and an unterminated final line contributes nothing. -/
theorem dedent_output_complete_lines (raw : List Char)
    (hlen : raw.length < 2 ^ 32)
    (hk : 0 < (non_empty_line_idx raw).2)
    (hlines : ∀ b, b < raw.length → (non_empty_line_idx raw).1 ≤ b →
      (b = (non_empty_line_idx raw).1 ∨ raw[b - 1]? = some '\n') →
      (non_empty_line_idx raw).2 ≤ ((raw.drop b).takeWhile isWsp).length) :
    ∃ t, dedent_string raw = some t ∧
      ∃ segs : List (List Char), t = segs.flatten ∧
        ∀ g ∈ segs, g ≠ [] ∧ g.getLast? = some '\n' ∧
          ∃ u v, raw.drop (non_empty_line_idx raw).1 = u ++ g ++ v := by
  obtain ⟨start, k, hnn⟩ : ∃ st kk, non_empty_line_idx raw = (st, kk) := ⟨_, _, rfl⟩
  obtain ⟨hle, hws, hend⟩ := non_empty_line_idx_char raw
  rw [hnn] at hk hle hws hend hlines ⊢
  simp only at hk hle hws hend hlines ⊢
  have hlen4 : raw.length < 4294967296 := by
    norm_num at hlen
    exact hlen
  have hkne : ¬k = 0 := by omega
  have hloop : dedent_string raw
      = dedent_loop raw k (raw.drop start) start true (-1) 0 [] := by
    simp [dedent_string, hnn, hkne]
  rw [hloop]
  refine dedent_loop_complete_lines raw k start hlen4 hlines (raw.drop start)
    start true (-1) 0 [] [] rfl (by omega) rfl (by simp) ?_ (by simp)
  intro _
  exact ⟨start, le_rfl, by omega, Or.inl rfl,
    fun j hj1 hj2 => absurd hj1 (by omega)⟩

/-- C10 (counterexample to the claim as stated): on `"     a\nbc\ndefghij"`
(reference indentation 5, an under-indented middle line) the output is
`"a\nfghij"`: it ends in `j`, not in a newline, and contains characters of
the final line even though that line is not newline-terminated. -/
theorem dedent_incomplete_final_line :
    (non_empty_line_idx "     a\nbc\ndefghij".data).2 = 5 ∧
    dedent_string "     a\nbc\ndefghij".data = some "a\nfghij".data ∧
    ("a\nfghij".data).getLast? = some 'j' := by
  exact ⟨by decide, by decide, by decide⟩

/-- Witness for the amended C10 theorem at the concrete input `"  a\n  b\n"`. -/
theorem dedent_output_complete_lines_witness :
    (("  a\n  b\n".data.length < 2 ^ 32) ∧
      (0 < (non_empty_line_idx "  a\n  b\n".data).2)) ∧
    (∃ t, dedent_string "  a\n  b\n".data = some t ∧
      ∃ segs : List (List Char), t = segs.flatten ∧
        ∀ g ∈ segs, g ≠ [] ∧ g.getLast? = some '\n' ∧
          ∃ u v, "  a\n  b\n".data.drop (non_empty_line_idx "  a\n  b\n".data).1
            = u ++ g ++ v) :=
  ⟨⟨by decide, by decide⟩,
    dedent_output_complete_lines ("  a\n  b\n".data) (by decide) (by decide)
      (by decide)⟩

/-- Witness for the idempotence theorem at the concrete input `"  a\n    b\n"`. -/
theorem dedent_string_idem_witness :
    ("  a\n    b\n".data.length < 2 ^ 32) ∧
    (dedent_string "  a\n    b\n".data).bind dedent_string
      = dedent_string "  a\n    b\n".data :=
  ⟨by decide, dedent_string_idem ("  a\n    b\n".data) (by decide)⟩

end Cppyplot
